import Mathlib

/-!
Verification of the `pairwise-ranker` engine (`src/pairwise-ranker.ts`).

The TypeScript class `PairwiseRanker` is embedded as a pure state type
`RankerState` with explicit state passing.  JavaScript numbers are modelled
as real numbers, `Math.pow(10, x)` as `Real.rpow`, and the fallible methods
(`constructor`, `submitComparison`) return `Except RankError _` in place of
`throw`.  The object `this.items` (string-keyed, insertion ordered, unique
keys) is a list of records in insertion order; the `Set` of compared pair
keys is a duplicate-free list; `Array.prototype.sort`, which ECMAScript
requires to be stable, is an explicit stable insertion sort.  The default
lexicographic string order used by `[itemA, itemB].sort()` is embedded as a
computable character-wise comparison `strLe`.
-/

namespace PairwiseRanker

/-- The record held per item (`interface ItemData`). -/
structure ItemData where
  item : String
  score : ℝ
  confidence : ℝ
  comparisons : ℕ

/-- The configuration (`Required<PairwiseRankerOptions>`). -/
structure RankerOptions where
  confidenceThreshold : ℝ
  lowComparisonWeight : ℝ
  confidenceWeight : ℝ
  proximityWeight : ℝ
  kFactor : ℝ

/-- The defaults merged in by the constructor. -/
def defaultOptions : RankerOptions :=
  { confidenceThreshold := 0.9
    lowComparisonWeight := 0.5
    confidenceWeight := 0.3
    proximityWeight := 0.2
    kFactor := 32 }

/-- The session state: the private fields of `class PairwiseRanker`. -/
structure RankerState where
  initialItems : List String
  items : List ItemData
  allPairs : List (String × String)
  comparedPairs : List String
  options : RankerOptions

/-- The three `throw new Error(...)` sites of the source. -/
inductive RankError where
  | invalidInput
  | unknownItem
  | sameItem
  deriving DecidableEq

/-- Lexicographic comparison of character lists by code point, the order
`Array.prototype.sort()` applies to strings. -/
def charListLe : List Char → List Char → Bool
  | [], _ => true
  | _ :: _, [] => false
  | a :: as, b :: bs =>
    if a.toNat < b.toNat then true
    else if b.toNat < a.toNat then false
    else charListLe as bs

/-- String comparison: `a <= b` in the sense of the JavaScript default sort. -/
def strLe (a b : String) : Bool := charListLe a.data b.data

/-- The private `_getPairKey`: `[itemA, itemB].sort().join('||')`. -/
def pairKey (a b : String) : String :=
  if strLe a b then a ++ "||" ++ b else b ++ "||" ++ a

/-- First-occurrence deduplication, `[...new Set(items)]`. -/
def dedupFirst : List String → List String
  | [] => []
  | x :: xs => x :: (dedupFirst xs).filter (fun y => y ≠ x)

/-- The double loop of `reset()` that fills `this.allPairs`:
`(items[i], items[j])` for all `i < j`, outer index first. -/
def mkAllPairs : List String → List (String × String)
  | [] => []
  | x :: xs => (xs.map (fun y => (x, y))) ++ mkAllPairs xs

/-- The state `reset()` builds from the stored item list and options:
every record at score 1200, confidence 0, comparisons 0; the pair
universe rebuilt; the compared set empty. -/
def mkFresh (initItems : List String) (opts : RankerOptions) : RankerState :=
  { initialItems := initItems
    items := initItems.map (fun s =>
      { item := s, score := 1200, confidence := 0, comparisons := 0 })
    allPairs := mkAllPairs initItems
    comparedPairs := []
    options := opts }

/-- The method `reset()`. -/
def resetState (st : RankerState) : RankerState :=
  mkFresh st.initialItems st.options

/-- The constructor: the length guard runs on the raw list, then the list is
deduplicated and `reset()` is called. -/
def mkRanker (items : List String) (opts : RankerOptions) :
    Except RankError RankerState :=
  if items.length < 2 then .error .invalidInput
  else .ok (mkFresh (dedupFirst items) opts)

/-- Lookup `this.items[name]` (an object access that may be undefined). -/
def findItem (st : RankerState) (name : String) : Option ItemData :=
  st.items.find? (fun d => d.item = name)

/-- The current score of a named item (0 when the item is unknown). -/
noncomputable def findScore (st : RankerState) (name : String) : ℝ :=
  ((findItem st name).map ItemData.score).getD 0

/-- The current comparison counter of a named item. -/
def findComparisons (st : RankerState) (name : String) : ℕ :=
  ((findItem st name).map ItemData.comparisons).getD 0

/-- The current confidence of a named item. -/
noncomputable def findConfidence (st : RankerState) (name : String) : ℝ :=
  ((findItem st name).map ItemData.confidence).getD 0

/-- The mutation `submitComparison` performs once every guard has passed:
`wd`/`ld` are the winner and loser records as read before any write, the
expected scores come from the logistic model, both scores are shifted by the
K-factor times the surprise, both counters are bumped and both confidences
recomputed, and the canonical key enters the compared set. -/
noncomputable def updateElo (st : RankerState) (winner loser : String)
    (wd ld : ItemData) : RankerState :=
  let winnerExpected : ℝ := 1 / (1 + (10 : ℝ) ^ ((ld.score - wd.score) / 400))
  let loserExpected : ℝ := 1 - winnerExpected
  { st with
    items := st.items.map (fun d =>
      if d.item = winner then
        { d with
          score := d.score + st.options.kFactor * (1 - winnerExpected)
          comparisons := d.comparisons + 1
          confidence := 1 - 1 / (1 + ((d.comparisons + 1 : ℕ) : ℝ)) }
      else if d.item = loser then
        { d with
          score := d.score + st.options.kFactor * (0 - loserExpected)
          comparisons := d.comparisons + 1
          confidence := 1 - 1 / (1 + ((d.comparisons + 1 : ℕ) : ℝ)) }
      else d)
    comparedPairs := pairKey winner loser :: st.comparedPairs }

/-- The method `submitComparison(winner, loser)`: unknown-item guard first,
same-item guard second, silent no-op on an already compared key, otherwise
the Elo update. -/
noncomputable def submitComparison (st : RankerState) (winner loser : String) :
    Except RankError RankerState :=
  match findItem st winner, findItem st loser with
  | some wd, some ld =>
    if winner = loser then .error .sameItem
    else if pairKey winner loser ∈ st.comparedPairs then .ok st
    else .ok (updateElo st winner loser wd ld)
  | _, _ => .error .unknownItem

/-- The result record of `getRankings()` (`interface RankingResult`). -/
structure RankingResult where
  item : String
  score : ℝ
  rank : ℕ
  confidence : ℝ

/-- Spread minimum, `Math.min(...scores)` on a nonempty array. -/
noncomputable def listMin : List ℝ → ℝ
  | [] => 0
  | x :: xs => xs.foldl min x

/-- Spread maximum, `Math.max(...scores)` on a nonempty array. -/
noncomputable def listMax : List ℝ → ℝ
  | [] => 0
  | x :: xs => xs.foldl max x

/-- One insertion step of a stable descending sort keyed by `f`: the new
element goes in front of the first element whose key is at most its own, so
earlier elements win ties.  This is the behaviour ECMAScript guarantees for
`Array.prototype.sort` with the comparator `(a, b) => b.score - a.score`. -/
noncomputable def insertByKey {α : Type} (f : α → ℝ) (x : α) :
    List α → List α
  | [] => [x]
  | y :: ys => if f y ≤ f x then x :: y :: ys else y :: insertByKey f x ys

/-- Stable descending insertion sort keyed by `f`. -/
noncomputable def sortByKey {α : Type} (f : α → ℝ) : List α → List α
  | [] => []
  | x :: xs => insertByKey f x (sortByKey f xs)

/-- The `forEach` of `getRankings` assigning `index + 1` as the rank. -/
def assignRanks : ℕ → List RankingResult → List RankingResult
  | _, [] => []
  | i, r :: rs => { r with rank := i } :: assignRanks (i + 1) rs

/-- The record the `getRankings` map builds for one item: the min-max
normalised score (0.5 when the range is 0), the confidence, and rank 0
before assignment. -/
noncomputable def rankingEntry (minScore scoreRange : ℝ) (d : ItemData) :
    RankingResult :=
  { item := d.item
    score := if scoreRange > 0 then (d.score - minScore) / scoreRange else 0.5
    confidence := d.confidence
    rank := 0 }

/-- The method `getRankings()`: min-max normalisation of the raw scores
(0.5 for everyone when the range is 0), stable sort by descending
normalised score, ranks 1, 2, ... assigned in sorted order. -/
noncomputable def getRankings (st : RankerState) : List RankingResult :=
  let scores := st.items.map ItemData.score
  let minScore := listMin scores
  let maxScore := listMax scores
  let scoreRange := maxScore - minScore
  let rankedItems := st.items.map (rankingEntry minScore scoreRange)
  assignRanks 1 (sortByKey RankingResult.score rankedItems)

/-- The method `isSessionComplete()`: the compared-set size equals the pair
count, or every item clears the confidence threshold. -/
def isSessionComplete (st : RankerState) : Prop :=
  st.comparedPairs.length = st.allPairs.length ∨
    ∀ d ∈ st.items, st.options.confidenceThreshold ≤ d.confidence

/-- Lookup of an item known to be present (`this.items[pair.itemA]`); the
default record is never reached on states whose pair universe only names
stored items. -/
def lookupData (st : RankerState) (name : String) : ItemData :=
  (findItem st name).getD { item := name, score := 0, confidence := 0, comparisons := 0 }

/-- The pair score computed inside `getNextMatches`: a constant
low-comparison term, a confidence term from the pair's mean confidence and a
proximity term from the normalised score difference (0 when the range is 0). -/
noncomputable def pairScoreOf (st : RankerState) (p : String × String) : ℝ :=
  let itemA := lookupData st p.1
  let itemB := lookupData st p.2
  let scores := st.items.map ItemData.score
  let minScore := listMin scores
  let maxScore := listMax scores
  let scoreRange := maxScore - minScore
  let comparisonTerm := st.options.lowComparisonWeight
  let avgItemConfidence := (itemA.confidence + itemB.confidence) / 2
  let confidenceTerm := st.options.confidenceWeight * (1 - avgItemConfidence)
  let scoreDifference : ℝ :=
    if scoreRange > 0 then
      |(itemA.score - minScore) / scoreRange - (itemB.score - minScore) / scoreRange|
    else 0
  let proximityTerm := st.options.proximityWeight * (1 / (1 + scoreDifference))
  comparisonTerm + confidenceTerm + proximityTerm

/-- The uncompared pairs, `allPairs.filter(key not in comparedPairs)`. -/
def uncomparedOf (st : RankerState) : List (String × String) :=
  st.allPairs.filter (fun p => pairKey p.1 p.2 ∉ st.comparedPairs)

open Classical in
/-- The method `getNextMatches(n)`: empty when the session is complete or
no uncompared pair remains; otherwise the uncompared pairs are scored,
stably sorted by descending pair score and the first `n` returned in their
stored orientation. -/
noncomputable def getNextMatches (st : RankerState) (n : ℕ) :
    List (String × String) :=
  if isSessionComplete st then []
  else
    let uncomparedPairs := uncomparedOf st
    if uncomparedPairs = [] then []
    else
      let scoredPairs := uncomparedPairs.map (fun p => (p, pairScoreOf st p))
      ((sortByKey Prod.snd scoredPairs).take n).map Prod.fst

/-- The method `getNextMatch()`: `getNextMatches(1)` unpacked. -/
noncomputable def getNextMatch (st : RankerState) : Option (String × String) :=
  (getNextMatches st 1).head?

/-- The session states reachable through the public interface: construction,
successful comparison submissions and resets (the query methods do not
mutate). -/
inductive Reachable : RankerState → Prop
  | construct (items : List String) (opts : RankerOptions) (st : RankerState) :
      mkRanker items opts = .ok st → Reachable st
  | submit (st st' : RankerState) (winner loser : String) :
      Reachable st → submitComparison st winner loser = .ok st' → Reachable st'
  | reset (st : RankerState) : Reachable st → Reachable (resetState st)

/-! ## Definitions written from the spec's words

The following definitions restate, for refinement comparisons, what the
spec says in its own terms: the Pair Universe as the family
`(items[i], items[j])` for `i < j` (section 4.2), and the scheduler as a
sort of the uncompared pairs by descending pair score with ties broken by
the universe's enumeration order (section 4.5). -/

/-- The Pair Universe as section 4.2 words it: `(items[i], items[j])` for
all `i < j` in list order, `i` outermost. -/
def pairUniverseSpec (l : List String) : List (String × String) :=
  (List.range l.length).flatMap (fun i =>
    ((List.range l.length).filter (fun j => i < j)).map
      (fun j => (l.getD i "", l.getD j "")))

/-- Pairs tagged with their enumeration position, counting from `k`. -/
def enumFrom {α : Type} : ℕ → List α → List (ℕ × α)
  | _, [] => []
  | k, x :: xs => (k, x) :: enumFrom (k + 1) xs

/-- Insertion for the spec's order on tagged pairs: strictly higher score
first, and among equal scores the lower enumeration index first. -/
noncomputable def insertRanked {α : Type} (f : α → ℝ) (x : ℕ × α) :
    List (ℕ × α) → List (ℕ × α)
  | [] => [x]
  | y :: ys =>
    if f y.2 < f x.2 ∨ (f y.2 = f x.2 ∧ x.1 < y.1) then x :: y :: ys
    else y :: insertRanked f x ys

/-- Sort by the spec's order: descending score, enumeration order on ties. -/
noncomputable def sortRanked {α : Type} (f : α → ℝ) :
    List (ℕ × α) → List (ℕ × α)
  | [] => []
  | x :: xs => insertRanked f x (sortRanked f xs)

/-- Normalisation as section 4.5 words it: `(score - min) / (max - min)`
over all current item scores, every value 0.5 when all scores are equal. -/
noncomputable def normScoreSpec (st : RankerState) (x : ℝ) : ℝ :=
  let mn := listMin (st.items.map ItemData.score)
  let mx := listMax (st.items.map ItemData.score)
  if mx - mn > 0 then (x - mn) / (mx - mn) else 0.5

/-- The spec's pair score formula (section 4.5):
`lowComparisonWeight + confidenceWeight * (1 - avgConfidence(A,B))
+ proximityWeight * (1 / (1 + |normScore(A) - normScore(B)|))`. -/
noncomputable def pairScoreSpec (st : RankerState) (p : String × String) : ℝ :=
  st.options.lowComparisonWeight
    + st.options.confidenceWeight *
        (1 - ((lookupData st p.1).confidence + (lookupData st p.2).confidence) / 2)
    + st.options.proximityWeight *
        (1 / (1 + |normScoreSpec st (lookupData st p.1).score
                    - normScoreSpec st (lookupData st p.2).score|))

open Classical in
/-- The scheduler as section 4.5 words it: nothing once the session is
complete, otherwise the uncompared pairs of the enumerated universe sorted
by descending pair score with ties in enumeration order, the first `n` of
them in stored orientation. -/
noncomputable def nextMatchesSpec (st : RankerState) (n : ℕ) :
    List (String × String) :=
  if isSessionComplete st then []
  else
    (((sortRanked (pairScoreSpec st)
        ((enumFrom 0 st.allPairs).filter
          (fun q => pairKey q.2.1 q.2.2 ∉ st.comparedPairs))).map Prod.snd).take n)

/-! ## Basic facts about the string order and the pair key -/

theorem charListLe_total (x y : List Char) :
    charListLe x y = true ∨ charListLe y x = true := by
  induction x generalizing y with
  | nil => left; rfl
  | cons a as ih =>
    cases y with
    | nil => right; rfl
    | cons b bs =>
      by_cases h1 : a.toNat < b.toNat
      · left; simp [charListLe, h1]
      · by_cases h2 : b.toNat < a.toNat
        · right; simp [charListLe, h2]
        · rcases ih bs with h | h
          · left; simp [charListLe, h1, h2, h]
          · right; simp [charListLe, h1, h2, h]

theorem charListLe_antisymm : ∀ {x y : List Char},
    charListLe x y = true → charListLe y x = true → x = y
  | [], [], _, _ => rfl
  | [], _ :: _, _, hyx => by simp [charListLe] at hyx
  | _ :: _, [], hxy, _ => by simp [charListLe] at hxy
  | a :: as, b :: bs, hxy, hyx => by
    by_cases h1 : a.toNat < b.toNat
    · simp [charListLe, h1, Nat.lt_asymm h1] at hyx
    · by_cases h2 : b.toNat < a.toNat
      · simp [charListLe, h1, h2] at hxy
      · have hab : a = b := by
          apply Char.eq_of_val_eq
          exact UInt32.toNat.inj (Nat.le_antisymm (Nat.not_lt.mp h2) (Nat.not_lt.mp h1))
        simp only [charListLe, h1, h2, if_false] at hxy hyx
        rw [hab, charListLe_antisymm hxy hyx]

theorem strLe_total (a b : String) : strLe a b = true ∨ strLe b a = true :=
  charListLe_total a.data b.data

theorem strLe_antisymm {a b : String} (hab : strLe a b = true)
    (hba : strLe b a = true) : a = b :=
  String.ext (charListLe_antisymm hab hba)

theorem pairKey_comm (a b : String) : pairKey a b = pairKey b a := by
  unfold pairKey
  by_cases h1 : strLe a b = true
  · by_cases h2 : strLe b a = true
    · rw [strLe_antisymm h1 h2]
    · simp [h1, h2]
  · rcases strLe_total a b with h | h2
    · exact absurd h h1
    · simp [h1, h2]

/-! ## How `submitComparison` acts on the store -/

/-- The expected winner probability of the spec's Elo rule, read off the
current scores. -/
noncomputable def expectedWinner (st : RankerState) (w l : String) : ℝ :=
  1 / (1 + (10 : ℝ) ^ ((findScore st l - findScore st w) / 400))

theorem expectedWinner_pos (st : RankerState) (w l : String) :
    0 < expectedWinner st w l := by
  have ht : (0 : ℝ) < (10 : ℝ) ^ ((findScore st l - findScore st w) / 400) :=
    Real.rpow_pos_of_pos (by norm_num) _
  have : (0 : ℝ) < 1 + (10 : ℝ) ^ ((findScore st l - findScore st w) / 400) := by
    linarith
  exact div_pos one_pos this

theorem expectedWinner_lt_one (st : RankerState) (w l : String) :
    expectedWinner st w l < 1 := by
  have ht : (0 : ℝ) < (10 : ℝ) ^ ((findScore st l - findScore st w) / 400) :=
    Real.rpow_pos_of_pos (by norm_num) _
  rw [expectedWinner, div_lt_one (by linarith)]
  linarith

theorem find?_map_preserving (u : ItemData → ItemData)
    (hu : ∀ d, (u d).item = d.item) (name : String) (l : List ItemData) :
    (l.map u).find? (fun d => d.item = name) =
      (l.find? (fun d => d.item = name)).map u := by
  induction l with
  | nil => rfl
  | cons d ds ih =>
    simp only [List.map_cons, List.find?_cons, hu d]
    by_cases h : d.item = name
    · simp [h]
    · simp [h, ih]

theorem findItem_name {st : RankerState} {name : String} {d : ItemData}
    (h : findItem st name = some d) : d.item = name := by
  have := List.find?_some h
  simpa using this

/-- The winner's record after `updateElo`, with the names it was keyed on. -/
theorem findItem_updateElo_winner (st : RankerState) (w l : String)
    (wd ld : ItemData) (hw : findItem st w = some wd)
    (hl : findItem st l = some ld) :
    findItem (updateElo st w l wd ld) w =
      some { wd with
        score := wd.score + st.options.kFactor * (1 - expectedWinner st w l)
        comparisons := wd.comparisons + 1
        confidence := 1 - 1 / (1 + ((wd.comparisons + 1 : ℕ) : ℝ)) } := by
  have hname : wd.item = w := findItem_name hw
  have hsw : findScore st w = wd.score := by simp [findScore, hw]
  have hsl : findScore st l = ld.score := by simp [findScore, hl]
  unfold findItem updateElo
  rw [find?_map_preserving _
    (fun d => by split <;> first | rfl | (split <;> rfl)) w]
  rw [show st.items.find? (fun d => d.item = w) = some wd from hw]
  simp only [Option.map_some']
  rw [if_pos hname]
  simp only [expectedWinner, hsw, hsl]

/-- The loser's record after `updateElo`, written exactly as the source
writes it (`score += K * (0 - loserExpected)`). -/
theorem findItem_updateElo_loser (st : RankerState) (w l : String)
    (wd ld : ItemData) (hw : findItem st w = some wd)
    (hl : findItem st l = some ld) (hne : w ≠ l) :
    findItem (updateElo st w l wd ld) l =
      some { ld with
        score := ld.score + st.options.kFactor * (0 - (1 - expectedWinner st w l))
        comparisons := ld.comparisons + 1
        confidence := 1 - 1 / (1 + ((ld.comparisons + 1 : ℕ) : ℝ)) } := by
  have hname : ld.item = l := findItem_name hl
  have hsw : findScore st w = wd.score := by simp [findScore, hw]
  have hsl : findScore st l = ld.score := by simp [findScore, hl]
  have hnw : ld.item ≠ w := by rw [hname]; exact fun h => hne h.symm
  unfold findItem updateElo
  rw [find?_map_preserving _
    (fun d => by split <;> first | rfl | (split <;> rfl)) l]
  rw [show st.items.find? (fun d => d.item = l) = some ld from hl]
  simp only [Option.map_some']
  rw [if_neg hnw, if_pos hname]
  simp only [expectedWinner, hsw, hsl]

/-- Once the guards pass on an uncompared pair, `submitComparison` performs
exactly the Elo update. -/
theorem submit_ok (st : RankerState) (w l : String) (wd ld : ItemData)
    (hw : findItem st w = some wd) (hl : findItem st l = some ld)
    (hne : w ≠ l) (hnc : pairKey w l ∉ st.comparedPairs) :
    submitComparison st w l = .ok (updateElo st w l wd ld) := by
  unfold submitComparison
  rw [hw, hl]
  simp [hne, hnc]

/-! ## Concrete states used by witnesses and counterexamples -/

/-- A fresh two-item session under the default configuration. -/
def freshAB : RankerState := mkFresh ["a", "b"] defaultOptions

/-- The stored record of "a" in `freshAB`. -/
def itemA0 : ItemData := { item := "a", score := 1200, confidence := 0, comparisons := 0 }

/-- The stored record of "b" in `freshAB`. -/
def itemB0 : ItemData := { item := "b", score := 1200, confidence := 0, comparisons := 0 }

/-- A configuration whose K-factor is zero: the constructor accepts it
unchanged, and with it a win moves no score. -/
def zeroKOptions : RankerOptions := { defaultOptions with kFactor := 0 }

/-! ## Claim C1: the Elo update -/

/-- C1 (amended): for known, distinct, not-yet-compared `w`, `l`, and
provided the configured K-factor is positive (the default 32 is),
`submitComparison` performs exactly the Elo update: the winner gains
`K * (1 - expectedWinner)` (hence strictly rises), the loser moves by
`K * (0 - expectedLoser)`, i.e. loses the same amount (hence strictly
falls), both counters rise by one, both confidences are recomputed as
`1 - 1/(1 + comparisons)`, and the pair is marked compared.  Without the
positivity proviso the strictness fails, see the counterexample. -/
theorem submitComparison_elo_update (st : RankerState) (w l : String)
    (wd ld : ItemData)
    (hw : findItem st w = some wd) (hl : findItem st l = some ld)
    (hne : w ≠ l) (hnc : pairKey w l ∉ st.comparedPairs)
    (hk : 0 < st.options.kFactor) :
    submitComparison st w l = .ok (updateElo st w l wd ld) ∧
    findScore (updateElo st w l wd ld) w =
      findScore st w + st.options.kFactor * (1 - expectedWinner st w l) ∧
    findScore st w < findScore (updateElo st w l wd ld) w ∧
    findScore (updateElo st w l wd ld) l =
      findScore st l - st.options.kFactor * (1 - expectedWinner st w l) ∧
    findScore (updateElo st w l wd ld) l < findScore st l ∧
    findComparisons (updateElo st w l wd ld) w = findComparisons st w + 1 ∧
    findComparisons (updateElo st w l wd ld) l = findComparisons st l + 1 ∧
    findConfidence (updateElo st w l wd ld) w =
      1 - 1 / (1 + (findComparisons (updateElo st w l wd ld) w : ℝ)) ∧
    findConfidence (updateElo st w l wd ld) l =
      1 - 1 / (1 + (findComparisons (updateElo st w l wd ld) l : ℝ)) ∧
    pairKey w l ∈ (updateElo st w l wd ld).comparedPairs := by
  have hWin := findItem_updateElo_winner st w l wd ld hw hl
  have hLos := findItem_updateElo_loser st w l wd ld hw hl hne
  have hgain : 0 < st.options.kFactor * (1 - expectedWinner st w l) :=
    mul_pos hk (by linarith [expectedWinner_lt_one st w l])
  have hsw : findScore st w = wd.score := by simp [findScore, hw]
  have hsl : findScore st l = ld.score := by simp [findScore, hl]
  refine ⟨submit_ok st w l wd ld hw hl hne hnc, ?_, ?_, ?_, ?_, ?_, ?_, ?_, ?_, ?_⟩
  · simp [findScore, hWin, hw]
  · simp only [findScore, hWin, hw, Option.map_some', Option.getD_some]
    linarith
  · simp only [findScore, hLos, hl, Option.map_some', Option.getD_some]
    ring
  · simp only [findScore, hLos, hl, Option.map_some', Option.getD_some]
    linarith
  · simp [findComparisons, hWin, hw]
  · simp [findComparisons, hLos, hl]
  · simp [findConfidence, findComparisons, hWin]
  · simp [findConfidence, findComparisons, hLos]
  · show pairKey w l ∈ pairKey w l :: st.comparedPairs
    exact List.mem_cons_self _ _

/-- C1 counterexample: with a configured K-factor of 0 (a configuration the
constructor accepts), a first comparison between the two known, distinct,
uncompared items leaves the winner's score exactly unchanged, so the score
does not strictly increase as the claim states for every session. -/
theorem submitComparison_zero_k_no_increase :
    (submitComparison (mkFresh ["a", "b"] zeroKOptions) "a" "b").map
        (fun st => findScore st "a") = .ok 1200 ∧
    findScore (mkFresh ["a", "b"] zeroKOptions) "a" = 1200 := by
  constructor
  · rw [submit_ok (mkFresh ["a", "b"] zeroKOptions) "a" "b" itemA0 itemB0 rfl rfl
      (by decide) (List.not_mem_nil _)]
    have h := findItem_updateElo_winner (mkFresh ["a", "b"] zeroKOptions) "a" "b"
      itemA0 itemB0 rfl rfl
    simp only [Except.map, findScore, h, Option.map_some', Option.getD_some]
    rw [show (mkFresh ["a", "b"] zeroKOptions).options.kFactor = 0 from rfl]
    norm_num [itemA0]
  · rfl

/-- C1 witness: the amended theorem applied to the fresh default two-item
session, whose K-factor is the default 32. -/
theorem submitComparison_elo_update_witness :
    submitComparison freshAB "a" "b" = .ok (updateElo freshAB "a" "b" itemA0 itemB0) ∧
    findScore (updateElo freshAB "a" "b" itemA0 itemB0) "a" =
      findScore freshAB "a" + freshAB.options.kFactor * (1 - expectedWinner freshAB "a" "b") ∧
    findScore freshAB "a" < findScore (updateElo freshAB "a" "b" itemA0 itemB0) "a" ∧
    findScore (updateElo freshAB "a" "b" itemA0 itemB0) "b" =
      findScore freshAB "b" - freshAB.options.kFactor * (1 - expectedWinner freshAB "a" "b") ∧
    findScore (updateElo freshAB "a" "b" itemA0 itemB0) "b" < findScore freshAB "b" ∧
    findComparisons (updateElo freshAB "a" "b" itemA0 itemB0) "a" =
      findComparisons freshAB "a" + 1 ∧
    findComparisons (updateElo freshAB "a" "b" itemA0 itemB0) "b" =
      findComparisons freshAB "b" + 1 ∧
    findConfidence (updateElo freshAB "a" "b" itemA0 itemB0) "a" =
      1 - 1 / (1 + (findComparisons (updateElo freshAB "a" "b" itemA0 itemB0) "a" : ℝ)) ∧
    findConfidence (updateElo freshAB "a" "b" itemA0 itemB0) "b" =
      1 - 1 / (1 + (findComparisons (updateElo freshAB "a" "b" itemA0 itemB0) "b" : ℝ)) ∧
    pairKey "a" "b" ∈ (updateElo freshAB "a" "b" itemA0 itemB0).comparedPairs :=
  submitComparison_elo_update freshAB "a" "b" itemA0 itemB0 rfl rfl
    (by decide) (List.not_mem_nil _) (by norm_num [freshAB, mkFresh, defaultOptions])

/-! ## Claim C4: the constructor's minimum-items guard -/

/-- C4 (code bug): the source checks `items.length < 2` before
deduplicating, so the two-element list `["a", "a"]`, which deduplicates to a
single identifier, is accepted and yields a one-item session instead of the
`InvalidInput` failure the spec requires. -/
theorem mkRanker_duplicate_pair_accepted :
    mkRanker ["a", "a"] defaultOptions = .ok (mkFresh ["a"] defaultOptions) ∧
    (mkFresh ["a"] defaultOptions).items.length = 1 ∧
    mkRanker [] defaultOptions = .error .invalidInput ∧
    mkRanker ["a"] defaultOptions = .error .invalidInput :=
  ⟨rfl, rfl, rfl, rfl⟩

/-! ## Claim C6: idempotence of re-submission -/

/-- C6: submitting an already-compared pair of known, distinct items is a
state-preserving no-op that returns normally; hence a second submission
right after a successful one, in either orientation, returns the state of
the first unchanged. -/
theorem submitComparison_idempotent (st : RankerState) (w l : String)
    (wd ld : ItemData)
    (hw : findItem st w = some wd) (hl : findItem st l = some ld)
    (hne : w ≠ l) :
    (pairKey w l ∈ st.comparedPairs → submitComparison st w l = .ok st) ∧
    (∀ st', submitComparison st w l = .ok st' →
      submitComparison st' w l = .ok st' ∧ submitComparison st' l w = .ok st') := by
  have hne' : l ≠ w := fun h => hne h.symm
  constructor
  · intro hmem
    unfold submitComparison
    rw [hw, hl]
    simp [hne, hmem]
  · intro st' h
    unfold submitComparison at h
    rw [hw, hl] at h
    simp only [if_neg hne] at h
    by_cases hmem : pairKey w l ∈ st.comparedPairs
    · rw [if_pos hmem] at h
      obtain rfl : st = st' := Except.ok.inj h
      constructor
      · unfold submitComparison
        rw [hw, hl]
        simp [hne, hmem]
      · unfold submitComparison
        rw [hl, hw]
        simp [hne', pairKey_comm l w, hmem]
    · rw [if_neg hmem] at h
      obtain rfl : st' = updateElo st w l wd ld := (Except.ok.inj h).symm
      have hWin := findItem_updateElo_winner st w l wd ld hw hl
      have hLos := findItem_updateElo_loser st w l wd ld hw hl hne
      have hmem' : pairKey w l ∈ (updateElo st w l wd ld).comparedPairs :=
        List.mem_cons_self _ _
      constructor
      · unfold submitComparison
        rw [hWin, hLos]
        simp [hne, hmem']
      · unfold submitComparison
        rw [hLos, hWin]
        simp [hne', pairKey_comm l w, hmem']

/-- C6 witness: after the first "a" beats "b" submission in the fresh
default session, re-submitting in either orientation returns the reached
state unchanged. -/
theorem submitComparison_idempotent_witness :
    submitComparison (updateElo freshAB "a" "b" itemA0 itemB0) "a" "b" =
      .ok (updateElo freshAB "a" "b" itemA0 itemB0) ∧
    submitComparison (updateElo freshAB "a" "b" itemA0 itemB0) "b" "a" =
      .ok (updateElo freshAB "a" "b" itemA0 itemB0) :=
  (submitComparison_idempotent freshAB "a" "b" itemA0 itemB0 rfl rfl (by decide)).2
    (updateElo freshAB "a" "b" itemA0 itemB0)
    (submit_ok freshAB "a" "b" itemA0 itemB0 rfl rfl (by decide) (List.not_mem_nil _))

/-! ## Claim C7: the failing guards -/

/-- C7: an unknown identifier on either side fails with the unknown-item
error, a known winner equal to the loser fails with the same-item error,
and a failing call returns no successor state at all, so the session state
is untouched (in this embedding an erroneous call produces only the error,
never a modified state). -/
theorem submitComparison_error_cases (st : RankerState) (w l : String) :
    (findItem st w = none ∨ findItem st l = none →
      submitComparison st w l = .error .unknownItem) ∧
    (w = l → (findItem st w).isSome = true →
      submitComparison st w l = .error .sameItem) := by
  constructor
  · intro h
    unfold submitComparison
    rcases h with h | h
    · rcases hfl : findItem st l with _ | ld <;> rw [h]
    · rcases hfw : findItem st w with _ | wd <;> rw [h]
  · intro hwl hs
    subst hwl
    obtain ⟨wd, hwd⟩ := Option.isSome_iff_exists.mp hs
    unfold submitComparison
    rw [hwd]
    simp

/-- C7 witness: in the fresh default session, "c" is unknown and a
self-comparison of "a" is rejected. -/
theorem submitComparison_error_cases_witness :
    submitComparison freshAB "c" "b" = .error .unknownItem ∧
    submitComparison freshAB "a" "a" = .error .sameItem :=
  ⟨(submitComparison_error_cases freshAB "c" "b").1 (Or.inl rfl),
   (submitComparison_error_cases freshAB "a" "a").2 rfl rfl⟩

/-! ## Claim C9: reset, and the pair universe as the spec enumerates it -/

theorem flatMap_congr_mem {α : Type} {l : List ℕ} {f g : ℕ → List α}
    (h : ∀ a ∈ l, f a = g a) : l.flatMap f = l.flatMap g := by
  induction l with
  | nil => rfl
  | cons a as ih =>
    simp only [List.flatMap_cons]
    rw [h a (by simp), ih (fun b hb => h b (by simp [hb]))]

theorem map_eq_range_getD {α : Type} (l : List String) (g : String → α) :
    l.map g = (List.range l.length).map (fun i => g (l.getD i "")) := by
  induction l with
  | nil => rfl
  | cons x xs ih =>
    rw [List.map_cons, List.length_cons, List.range_succ_eq_map, List.map_cons,
      List.getD_cons_zero, List.map_map]
    exact congrArg (g x :: ·) ih

/-- The `allPairs` loop builds exactly the spec's enumeration
`(items[i], items[j])` for `i < j`. -/
theorem mkAllPairs_eq_spec (l : List String) :
    mkAllPairs l = pairUniverseSpec l := by
  induction l with
  | nil => rfl
  | cons x xs ih =>
    unfold pairUniverseSpec
    rw [List.length_cons, List.range_succ_eq_map, List.flatMap_cons]
    have hfilter0 :
        ((0 :: List.map Nat.succ (List.range xs.length)).filter (fun j => 0 < j)) =
          List.map Nat.succ (List.range xs.length) := by
      rw [List.filter_cons]
      simp only [decide_eq_true_eq, Nat.lt_irrefl, if_false]
      rw [List.filter_eq_self.mpr]
      intro a ha
      obtain ⟨b, _, rfl⟩ := List.mem_map.mp ha
      simp
    have hhead :
        ((0 :: List.map Nat.succ (List.range xs.length)).filter (fun j => 0 < j)).map
            (fun j => ((x :: xs).getD 0 "", (x :: xs).getD j "")) =
          xs.map (fun y => (x, y)) := by
      rw [hfilter0, List.map_map]
      rw [map_eq_range_getD xs (fun y => (x, y))]
      apply List.map_congr_left
      intro i hi
      simp
    rw [show (0 :: List.map Nat.succ (List.range xs.length)) =
        0 :: List.map Nat.succ (List.range xs.length) from rfl] at hhead ⊢
    rw [mkAllPairs]
    rw [hhead, List.flatMap_map, ih]
    congr 1
    unfold pairUniverseSpec
    apply flatMap_congr_mem
    intro i hi
    have hfilterS :
        ((x :: xs).length |> List.range).filter (fun j => Nat.succ i < j) =
          List.map Nat.succ ((List.range xs.length).filter (fun j => i < j)) := by
      rw [List.length_cons, List.range_succ_eq_map, List.filter_cons]
      simp only [decide_eq_true_eq, Nat.not_lt_zero, if_false]
      rw [List.filter_map]
      congr 1
      apply List.filter_congr
      intro a _
      simp [Nat.succ_lt_succ_iff]
    rw [List.length_cons, List.range_succ_eq_map] at hfilterS
    rw [hfilterS, List.map_map]
    apply List.map_congr_left
    intro j hj
    simp

/-- C9: `reset()` rebuilds the rating store from the stored deduplicated
item list with every record at score 1200, confidence 0 and comparisons 0,
rebuilds the pair universe as `(items[i], items[j])` for all `i < j` in
enumeration order, empties the compared set, and leaves the configuration
and the stored item list untouched. -/
theorem resetState_restores (st : RankerState) :
    (resetState st).items = st.initialItems.map (fun s =>
      { item := s, score := 1200, confidence := 0, comparisons := 0 }) ∧
    (resetState st).allPairs = pairUniverseSpec st.initialItems ∧
    (resetState st).comparedPairs = [] ∧
    (resetState st).options = st.options ∧
    (resetState st).initialItems = st.initialItems :=
  ⟨rfl, mkAllPairs_eq_spec st.initialItems, rfl, rfl, rfl⟩

/-! ## Claim C5: canonical pair keys -/

/-- Splitting on the separator is unambiguous when neither prefix contains
the separator character. -/
theorem sep_split_unique {l₁ l₂ m₁ m₂ : List Char}
    (h₁ : '|' ∉ l₁) (h₂ : '|' ∉ l₂)
    (h : l₁ ++ '|' :: '|' :: m₁ = l₂ ++ '|' :: '|' :: m₂) :
    l₁ = l₂ ∧ m₁ = m₂ := by
  induction l₁ generalizing l₂ with
  | nil =>
    cases l₂ with
    | nil => simpa using h
    | cons c l₂ =>
      simp only [List.nil_append, List.cons_append, List.cons.injEq] at h
      obtain ⟨h1, _⟩ := h
      subst h1
      exact absurd (List.mem_cons_self _ _) h₂
  | cons a l₁ ih =>
    cases l₂ with
    | nil =>
      simp only [List.cons_append, List.nil_append, List.cons.injEq] at h
      obtain ⟨h1, _⟩ := h
      subst h1
      exact absurd (List.mem_cons_self _ _) h₁
    | cons c l₂ =>
      simp only [List.cons_append, List.cons.injEq] at h
      obtain ⟨rfl, h'⟩ := h
      have hres := ih (fun hm => h₁ (List.mem_cons_of_mem _ hm))
        (fun hm => h₂ (List.mem_cons_of_mem _ hm)) h'
      exact ⟨by rw [hres.1], hres.2⟩

theorem key_concat_data (x y : String) :
    (x ++ "||" ++ y).data = x.data ++ '|' :: '|' :: y.data := by
  have hsep : ("||" : String).data = ['|', '|'] := rfl
  rw [String.data_append, String.data_append, hsep, List.append_assoc,
    List.cons_append, List.cons_append, List.nil_append]

theorem concat_sep_inj {x₁ y₁ x₂ y₂ : String}
    (hx₁ : '|' ∉ x₁.data) (hx₂ : '|' ∉ x₂.data)
    (h : x₁ ++ "||" ++ y₁ = x₂ ++ "||" ++ y₂) : x₁ = x₂ ∧ y₁ = y₂ := by
  have hd := congrArg String.data h
  rw [key_concat_data, key_concat_data] at hd
  obtain ⟨h1, h2⟩ := sep_split_unique hx₁ hx₂ hd
  exact ⟨String.ext h1, String.ext h2⟩

/-- Injectivity of the canonical key, as an unordered pair, on identifiers
free of the separator character. -/
theorem pairKey_inj_unordered {a b c d : String}
    (ha : '|' ∉ a.data) (hb : '|' ∉ b.data) (hc : '|' ∉ c.data)
    (hd : '|' ∉ d.data) (h : pairKey a b = pairKey c d) :
    (a = c ∧ b = d) ∨ (a = d ∧ b = c) := by
  unfold pairKey at h
  split at h <;> split at h
  · obtain ⟨h1, h2⟩ := concat_sep_inj ha hc h
    exact Or.inl ⟨h1, h2⟩
  · obtain ⟨h1, h2⟩ := concat_sep_inj ha hd h
    exact Or.inr ⟨h1, h2⟩
  · obtain ⟨h1, h2⟩ := concat_sep_inj hb hc h
    exact Or.inr ⟨h2, h1⟩
  · obtain ⟨h1, h2⟩ := concat_sep_inj hb hd h
    exact Or.inl ⟨h2, h1⟩

/-- C5 (amended): the canonical key is order-independent for all
identifiers, and injective on unordered pairs of identifiers that do not
contain the separator character; with the separator inside identifiers
distinct pairs can collide, see the counterexample. -/
theorem pairKey_canonical :
    (∀ a b : String, pairKey a b = pairKey b a) ∧
    (∀ a b c d : String, '|' ∉ a.data → '|' ∉ b.data → '|' ∉ c.data →
      '|' ∉ d.data → pairKey a b = pairKey c d →
      (a = c ∧ b = d) ∨ (a = d ∧ b = c)) :=
  ⟨pairKey_comm, fun _ _ _ _ ha hb hc hd h =>
    pairKey_inj_unordered ha hb hc hd h⟩

/-- C5 counterexample: the distinct unordered pairs
`{"a", "b||c"}` and `{"a||b", "c"}` share the canonical key
`"a||b||c"`, so the separator does collide on identifiers that contain
it. -/
theorem pairKey_collision :
    pairKey "a" "b||c" = pairKey "a||b" "c" ∧
    ¬(("a" = "a||b" ∧ "b||c" = "c") ∨ ("a" = "c" ∧ "b||c" = "a||b")) := by
  constructor
  · rfl
  · decide

/-! ## The reachable-state invariant -/

/-- The names held by the rating store, in insertion order. -/
def itemNames (st : RankerState) : List String := st.items.map ItemData.item

/-- The sum of all raw scores. -/
noncomputable def sumScores (st : RankerState) : ℝ :=
  (st.items.map ItemData.score).sum

theorem dedupFirst_nodup (l : List String) : (dedupFirst l).Nodup := by
  induction l with
  | nil => exact List.nodup_nil
  | cons x xs ih =>
    refine List.Nodup.cons ?_ (ih.filter _)
    intro hmem
    have := (List.mem_filter.mp hmem).2
    simp at this

theorem mem_mkAllPairs_components {l : List String} {p : String × String}
    (h : p ∈ mkAllPairs l) : p.1 ∈ l ∧ p.2 ∈ l := by
  induction l with
  | nil => simp [mkAllPairs] at h
  | cons x xs ih =>
    rw [mkAllPairs, List.mem_append] at h
    rcases h with h | h
    · obtain ⟨y, hy, rfl⟩ := List.mem_map.mp h
      exact ⟨List.mem_cons_self _ _, List.mem_cons_of_mem _ hy⟩
    · obtain ⟨h1, h2⟩ := ih h
      exact ⟨List.mem_cons_of_mem _ h1, List.mem_cons_of_mem _ h2⟩

theorem mkAllPairs_mem_of_mem {l : List String} {a b : String}
    (ha : a ∈ l) (hb : b ∈ l) (hne : a ≠ b) :
    (a, b) ∈ mkAllPairs l ∨ (b, a) ∈ mkAllPairs l := by
  induction l with
  | nil => simp at ha
  | cons x xs ih =>
    rcases List.mem_cons.mp ha with rfl | ha'
    · rcases List.mem_cons.mp hb with rfl | hb'
      · exact absurd rfl hne
      · left
        rw [mkAllPairs, List.mem_append]
        exact Or.inl (List.mem_map.mpr ⟨b, hb', rfl⟩)
    · rcases List.mem_cons.mp hb with rfl | hb'
      · right
        rw [mkAllPairs, List.mem_append]
        exact Or.inl (List.mem_map.mpr ⟨a, ha', rfl⟩)
      · rcases ih ha' hb' with h | h
        · left
          rw [mkAllPairs, List.mem_append]
          exact Or.inr h
        · right
          rw [mkAllPairs, List.mem_append]
          exact Or.inr h

theorem findItem_some_mem {st : RankerState} {n : String} {d : ItemData}
    (h : findItem st n = some d) : n ∈ st.items.map ItemData.item := by
  have hmem : d ∈ st.items := List.mem_of_find?_eq_some h
  have hname : d.item = n := findItem_name h
  exact hname ▸ List.mem_map.mpr ⟨d, hmem, rfl⟩

theorem map_item_preserving (u : ItemData → ItemData)
    (hu : ∀ d, (u d).item = d.item) (l : List ItemData) :
    (l.map u).map ItemData.item = l.map ItemData.item := by
  rw [List.map_map]
  exact List.map_congr_left (fun d _ => hu d)

/-- Summing after updating, by `δ`, the score of the one record named `n`. -/
theorem sum_map_single_update (un : ItemData → ItemData) (n : String) (δ : ℝ)
    (hscore : ∀ d, d.item = n → (un d).score = d.score + δ) :
    ∀ l : List ItemData, (l.map ItemData.item).Nodup →
      n ∈ l.map ItemData.item →
      ((l.map (fun d => if d.item = n then un d else d)).map ItemData.score).sum =
        (l.map ItemData.score).sum + δ := by
  intro l
  induction l with
  | nil => intro _ h; simp at h
  | cons d ds ih =>
    intro hnodup hmem
    rw [List.map_cons] at hnodup
    have hmem2 : n ∈ d.item :: ds.map ItemData.item := by
      rw [List.map_cons] at hmem
      exact hmem
    by_cases hd : d.item = n
    · have hnotin : ∀ d' ∈ ds, d'.item ≠ n := by
        intro d' hd' heq
        exact (List.nodup_cons.mp hnodup).1 (hd ▸ heq ▸ List.mem_map.mpr ⟨d', hd', rfl⟩)
      have hfix : ds.map (fun d' => if d'.item = n then un d' else d') = ds := by
        have heq : ds.map (fun d' => if d'.item = n then un d' else d') = ds.map id :=
          List.map_congr_left (fun d' hd' => by rw [if_neg (hnotin d' hd')]; rfl)
        rw [heq, List.map_id]
      simp only [List.map_cons, if_pos hd, hscore d hd, hfix]
      rw [List.sum_cons, List.sum_cons]
      ring
    · have hmem' : n ∈ ds.map ItemData.item := by
        rcases List.mem_cons.mp hmem2 with h | h
        · exact absurd h.symm hd
        · exact h
      simp only [List.map_cons, if_neg hd]
      rw [List.sum_cons, List.sum_cons, ih (List.nodup_cons.mp hnodup).2 hmem']
      ring

theorem sum_map_double_update (uw ul : ItemData → ItemData) (w lo : String)
    (δw δl : ℝ)
    (hws : ∀ d, d.item = w → (uw d).score = d.score + δw)
    (hls : ∀ d, d.item = lo → (ul d).score = d.score + δl)
    (hwitem : ∀ d, (uw d).item = d.item)
    (hne : w ≠ lo) (l : List ItemData)
    (hnd : (l.map ItemData.item).Nodup)
    (hwm : w ∈ l.map ItemData.item) (hlm : lo ∈ l.map ItemData.item) :
    ((l.map (fun d => if d.item = w then uw d else if d.item = lo then ul d
        else d)).map ItemData.score).sum =
      (l.map ItemData.score).sum + δw + δl := by
  have hwpres : ∀ d, ((fun d => if d.item = w then uw d else d) d).item = d.item := by
    intro d
    by_cases h1 : d.item = w
    · simp [if_pos h1, hwitem d]
    · simp [if_neg h1]
  have hcomp : l.map (fun d => if d.item = w then uw d else if d.item = lo then ul d else d)
      = (l.map (fun d => if d.item = w then uw d else d)).map
          (fun d => if d.item = lo then ul d else d) := by
    rw [List.map_map]
    apply List.map_congr_left
    intro d _
    by_cases h1 : d.item = w
    · have hno : (uw d).item ≠ lo := by rw [hwitem d, h1]; exact hne
      simp only [Function.comp_apply, if_pos h1, if_neg hno]
    · by_cases h2 : d.item = lo
      · simp only [Function.comp_apply, if_neg h1, if_pos h2]
      · simp only [Function.comp_apply, if_neg h1, if_neg h2]
  rw [hcomp]
  rw [sum_map_single_update ul lo δl hls _
    (by rw [map_item_preserving _ hwpres]; exact hnd)
    (by rw [map_item_preserving _ hwpres]; exact hlm)]
  rw [sum_map_single_update uw w δw hws l hnd hwm]

/-- Every successful `submitComparison` is either the silent no-op or the
full Elo update on an uncompared pair of known, distinct items. -/
theorem submit_ok_cases {st st' : RankerState} {w lo : String}
    (h : submitComparison st w lo = .ok st') :
    st' = st ∨
    ∃ wd ld, findItem st w = some wd ∧ findItem st lo = some ld ∧ w ≠ lo ∧
      pairKey w lo ∉ st.comparedPairs ∧ st' = updateElo st w lo wd ld := by
  unfold submitComparison at h
  split at h
  · rename_i wd ld hfw hfl
    split at h
    · cases h
    · split at h
      · exact Or.inl (Except.ok.inj h).symm
      · rename_i hne hmem
        exact Or.inr ⟨wd, ld, hfw, hfl, hne, hmem, (Except.ok.inj h).symm⟩
  · cases h

theorem sum_map_const_score (c : ℝ) (l : List String) :
    ((l.map (fun s => ({ item := s, score := c, confidence := 0, comparisons := 0 } : ItemData))).map ItemData.score).sum = c * l.length := by
  induction l with
  | nil => simp
  | cons x xs ih =>
    simp only [List.map_cons, List.sum_cons, ih, List.length_cons]
    push_cast
    ring

/-- The invariant of `mkFresh` on a duplicate-free item list. -/
theorem mkFresh_invariant (init : List String) (opts : RankerOptions)
    (hnd : init.Nodup) :
    (mkFresh init opts).items.map ItemData.item = (mkFresh init opts).initialItems ∧
    (mkFresh init opts).initialItems.Nodup ∧
    (mkFresh init opts).allPairs = mkAllPairs (mkFresh init opts).initialItems ∧
    (mkFresh init opts).comparedPairs.Nodup ∧
    (∀ k ∈ (mkFresh init opts).comparedPairs,
      ∃ p ∈ (mkFresh init opts).allPairs, k = pairKey p.1 p.2) ∧
    sumScores (mkFresh init opts) = 1200 * (mkFresh init opts).initialItems.length := by
  refine ⟨?_, hnd, rfl, List.nodup_nil, by simp [mkFresh], ?_⟩
  · show (init.map (fun s => ({ item := s, score := 1200, confidence := 0, comparisons := 0 } : ItemData))).map ItemData.item = init
    rw [List.map_map]
    have heq : init.map (ItemData.item ∘ fun s => ({ item := s, score := 1200, confidence := 0, comparisons := 0 } : ItemData)) = init.map id :=
      List.map_congr_left (fun s _ => rfl)
    rw [heq, List.map_id]
  · exact sum_map_const_score 1200 init

/-- The state invariant every reachable session satisfies: the store's names
are exactly the stored deduplicated item list (which is duplicate-free), the
pair universe is the one built from that list, the compared set is a
duplicate-free set of canonical keys of universe pairs, and the raw scores
sum to 1200 per item. -/
theorem reachable_invariant {st : RankerState} (h : Reachable st) :
    st.items.map ItemData.item = st.initialItems ∧
    st.initialItems.Nodup ∧
    st.allPairs = mkAllPairs st.initialItems ∧
    st.comparedPairs.Nodup ∧
    (∀ k ∈ st.comparedPairs, ∃ p ∈ st.allPairs, k = pairKey p.1 p.2) ∧
    sumScores st = 1200 * st.initialItems.length := by
  induction h with
  | construct items opts st hok =>
    unfold mkRanker at hok
    split at hok
    · cases hok
    · obtain rfl : mkFresh (dedupFirst items) opts = st := Except.ok.inj hok
      exact mkFresh_invariant (dedupFirst items) opts (dedupFirst_nodup items)
  | submit st st' w lo hr hok ih =>
    rcases submit_ok_cases hok with rfl | ⟨wd, ld, hw, hl, hne, hnc, rfl⟩
    · exact ih
    · obtain ⟨hnames, hnd, hpairs, hcnd, hcmem, hsum⟩ := ih
      have hnodup : (st.items.map ItemData.item).Nodup := by
        rw [hnames]; exact hnd
      have hwmem : w ∈ st.items.map ItemData.item := findItem_some_mem hw
      have hlmem : lo ∈ st.items.map ItemData.item := findItem_some_mem hl
      refine ⟨?_, hnd, hpairs, ?_, ?_, ?_⟩
      · show (st.items.map _).map ItemData.item = st.initialItems
        rw [map_item_preserving _
          (fun d => by split <;> first | rfl | (split <;> rfl)), hnames]
      · exact List.nodup_cons.mpr ⟨hnc, hcnd⟩
      · intro k hk
        rcases List.mem_cons.mp hk with rfl | hk'
        · have hwmem' : w ∈ st.initialItems := hnames ▸ hwmem
          have hlmem' : lo ∈ st.initialItems := hnames ▸ hlmem
          rcases mkAllPairs_mem_of_mem hwmem' hlmem' hne with hp | hp
          · refine ⟨(w, lo), ?_, rfl⟩
            show (w, lo) ∈ st.allPairs
            rw [hpairs]
            exact hp
          · refine ⟨(lo, w), ?_, pairKey_comm w lo⟩
            show (lo, w) ∈ st.allPairs
            rw [hpairs]
            exact hp
        · obtain ⟨p, hp, hkey⟩ := hcmem k hk'
          refine ⟨p, ?_, hkey⟩
          show p ∈ st.allPairs
          exact hp
      · show ((st.items.map _).map ItemData.score).sum =
          1200 * st.initialItems.length
        rw [sum_map_double_update
          (fun d => ({ d with score := d.score + st.options.kFactor * (1 - 1 / (1 + (10 : ℝ) ^ ((ld.score - wd.score) / 400))), comparisons := d.comparisons + 1, confidence := 1 - 1 / (1 + ((d.comparisons + 1 : ℕ) : ℝ)) } : ItemData))
          (fun d => ({ d with score := d.score + st.options.kFactor * (0 - (1 - 1 / (1 + (10 : ℝ) ^ ((ld.score - wd.score) / 400)))), comparisons := d.comparisons + 1, confidence := 1 - 1 / (1 + ((d.comparisons + 1 : ℕ) : ℝ)) } : ItemData))
          w lo
          (st.options.kFactor * (1 - 1 / (1 + (10 : ℝ) ^ ((ld.score - wd.score) / 400))))
          (st.options.kFactor * (0 - (1 - 1 / (1 + (10 : ℝ) ^ ((ld.score - wd.score) / 400)))))
          (fun d _ => rfl) (fun d _ => rfl) (fun d => rfl) hne st.items
          hnodup hwmem hlmem]
        rw [show (st.items.map ItemData.score).sum = sumScores st from rfl, hsum]
        ring
  | reset st hr ih =>
    exact mkFresh_invariant st.initialItems st.options ih.2.1

/-! ## Claim C10: the score-sum invariant -/

/-- C10: along every operation sequence the sum of raw scores is invariant
and equals 1200 times the number of (deduplicated) items: each successful
comparison moves the winner by `K * (1 - expectedWinner)` and the loser by
exactly the negation, and construction and reset both give every one of the
`n` items score 1200. -/
theorem sumScores_reachable {st : RankerState} (h : Reachable st) :
    sumScores st = 1200 * (st.initialItems.length : ℝ) ∧
    st.items.length = st.initialItems.length := by
  obtain ⟨hnames, _, _, _, _, hsum⟩ := reachable_invariant h
  exact ⟨hsum, by rw [← hnames, List.length_map]⟩

/-- C10 witness: the fresh default two-item session carries total score
2400 over its 2 items. -/
theorem sumScores_reachable_witness :
    sumScores freshAB = 1200 * ((["a", "b"] : List String).length : ℝ) ∧
    freshAB.items.length = (["a", "b"] : List String).length :=
  sumScores_reachable (Reachable.construct ["a", "b"] defaultOptions freshAB rfl)

/-! ## Claim C2: the completion predicate -/

/-- On a duplicate-free item list whose identifiers avoid the separator,
the canonical keys of the pair universe are pairwise distinct. -/
theorem mkAllPairs_keys_nodup {l : List String} (hnd : l.Nodup)
    (hbar : ∀ s ∈ l, '|' ∉ s.data) :
    ((mkAllPairs l).map (fun p => pairKey p.1 p.2)).Nodup := by
  induction l with
  | nil => exact List.nodup_nil
  | cons x xs ih =>
    have hxbar : '|' ∉ x.data := hbar x (List.mem_cons_self _ _)
    have hxsbar : ∀ s ∈ xs, '|' ∉ s.data :=
      fun s hs => hbar s (List.mem_cons_of_mem _ hs)
    have hxnot : x ∉ xs := (List.nodup_cons.mp hnd).1
    have hxsnd : xs.Nodup := (List.nodup_cons.mp hnd).2
    rw [mkAllPairs, List.map_append, List.map_map]
    refine List.Nodup.append ?_ (ih hxsnd hxsbar) ?_
    · refine List.Nodup.map_on ?_ hxsnd
      intro y1 h1 y2 h2 hkey
      rcases pairKey_inj_unordered hxbar (hxsbar y1 h1) hxbar (hxsbar y2 h2)
        hkey with ⟨_, h⟩ | ⟨hxy, hyx⟩
      · exact h
      · rw [← hxy, hyx]
    · intro k hk1 hk2
      obtain ⟨y, hy, rfl⟩ := List.mem_map.mp hk1
      obtain ⟨p, hp, hpk⟩ := List.mem_map.mp hk2
      obtain ⟨hp1, hp2⟩ := mem_mkAllPairs_components hp
      rcases pairKey_inj_unordered (hxsbar p.1 hp1) (hxsbar p.2 hp2) hxbar
        (hxsbar y hy) hpk with ⟨hpx, _⟩ | ⟨_, hpx⟩
      · exact hxnot (hpx ▸ hp1)
      · exact hxnot (hpx ▸ hp2)

/-- A duplicate-free sublist of a duplicate-free list has the full length
exactly when it exhausts the list. -/
theorem length_eq_iff_all_mem {compared keys : List String}
    (hknd : keys.Nodup) (hcnd : compared.Nodup)
    (hsub : ∀ k ∈ compared, k ∈ keys) :
    compared.length = keys.length ↔ ∀ k ∈ keys, k ∈ compared := by
  constructor
  · intro hlen
    have hperm : compared.Perm keys :=
      (hcnd.subperm (fun k hk => hsub k hk)).perm_of_length_le (le_of_eq hlen.symm)
    intro k hk
    exact hperm.mem_iff.mpr hk
  · intro hall
    have h1 : compared.Subperm keys := hcnd.subperm (fun k hk => hsub k hk)
    have h2 : keys.Subperm compared := hknd.subperm (fun k hk => hall k hk)
    exact le_antisymm h1.length_le h2.length_le

/-- C2 (amended): on every reachable session whose identifiers avoid the
separator character `|` (so the canonical keys of distinct pairs cannot
collide), `isSessionComplete()` holds exactly when every pair of the
universe has its key in the compared set or every item's confidence clears
the threshold; the call is a pure function of the state.  Without the
separator proviso the size comparison the code performs can miss pairs
whose keys collide, see the counterexample. -/
theorem isSessionComplete_iff (st : RankerState) (h : Reachable st)
    (hbar : ∀ s ∈ st.initialItems, '|' ∉ s.data) :
    (isSessionComplete st ↔
      (∀ p ∈ st.allPairs, pairKey p.1 p.2 ∈ st.comparedPairs) ∨
      (∀ d ∈ st.items, st.options.confidenceThreshold ≤ d.confidence)) := by
  obtain ⟨hnames, hnd, hpairs, hcnd, hcmem, _⟩ := reachable_invariant h
  have hknd : (st.allPairs.map (fun p => pairKey p.1 p.2)).Nodup := by
    rw [hpairs]
    exact mkAllPairs_keys_nodup hnd hbar
  have hsub : ∀ k ∈ st.comparedPairs,
      k ∈ st.allPairs.map (fun p => pairKey p.1 p.2) := by
    intro k hk
    obtain ⟨p, hp, rfl⟩ := hcmem k hk
    exact List.mem_map.mpr ⟨p, hp, rfl⟩
  have hlen : st.comparedPairs.length = st.allPairs.length ↔
      ∀ p ∈ st.allPairs, pairKey p.1 p.2 ∈ st.comparedPairs := by
    rw [show st.allPairs.length =
      (st.allPairs.map (fun p => pairKey p.1 p.2)).length from
        (List.length_map _ _).symm]
    rw [length_eq_iff_all_mem hknd hcnd hsub]
    constructor
    · intro hall p hp
      exact hall (pairKey p.1 p.2) (List.mem_map.mpr ⟨p, hp, rfl⟩)
    · intro hall k hk
      obtain ⟨p, hp, rfl⟩ := List.mem_map.mp hk
      exact hall p hp
  exact or_congr hlen Iff.rfl

/-- C2 witness: the fresh default two-item session is not complete — its
one pair is uncompared and both confidences are 0 below the 0.9
threshold. -/
theorem isSessionComplete_iff_witness : ¬ isSessionComplete freshAB := by
  intro hcomp
  rcases (isSessionComplete_iff freshAB
      (Reachable.construct ["a", "b"] defaultOptions freshAB rfl)
      (by decide)).mp hcomp with hall | hconf
  · have := hall ("a", "b") (by decide)
    revert this
    decide
  · have := hconf itemA0 (by
      show itemA0 ∈ freshAB.items
      rw [show freshAB.items = [itemA0, itemB0] from rfl]
      exact List.mem_cons_self _ _)
    rw [show freshAB.options.confidenceThreshold = (0.9 : ℝ) from rfl,
      show itemA0.confidence = 0 from rfl] at this
    norm_num at this

/-- The guarded update with the records read off the store, as the method
body does once its guards pass. -/
noncomputable def eloStep (st : RankerState) (w lo : String) : RankerState :=
  updateElo st w lo (lookupData st w) (lookupData st lo)

theorem findItem_eq_some_lookupData {st : RankerState} {n : String}
    (h : (findItem st n).isSome = true) :
    findItem st n = some (lookupData st n) := by
  unfold lookupData
  cases hf : findItem st n with
  | none => rw [hf] at h; cases h
  | some d => rfl

theorem submit_eloStep {st : RankerState} {w lo : String}
    (hw : (findItem st w).isSome = true) (hl : (findItem st lo).isSome = true)
    (hne : w ≠ lo) (hnc : pairKey w lo ∉ st.comparedPairs) :
    submitComparison st w lo = .ok (eloStep st w lo) :=
  submit_ok st w lo _ _ (findItem_eq_some_lookupData hw)
    (findItem_eq_some_lookupData hl) hne hnc

/-- Four identifiers two of whose six unordered pairs share one canonical
key: both `("a", "b||c")` and `("a||b", "c")` key to `"a||b||c"`. -/
def collideItems : List String := ["a", "b||c", "a||b", "c"]

/-- The fresh session over `collideItems` under default options. -/
def collideState0 : RankerState := mkFresh collideItems defaultOptions

/-- The session over `collideItems` after the five effective comparisons
`(a, b||c)`, `(a, a||b)`, `(a, c)`, `(b||c, a||b)`, `(b||c, c)`.  At this
point the remaining pair `("a||b", "c")` has its key in the compared set
through the collision, yet the set's size is 5 against 6 universe pairs. -/
noncomputable def collideState : RankerState :=
  eloStep (eloStep (eloStep (eloStep (eloStep collideState0
    "a" "b||c") "a" "a||b") "a" "c") "b||c" "a||b") "b||c" "c"

theorem collideState_reachable : Reachable collideState := by
  have h0 : Reachable collideState0 :=
    Reachable.construct collideItems defaultOptions collideState0 rfl
  have h1 := Reachable.submit _ _ "a" "b||c" h0
    (submit_eloStep rfl rfl (by decide) (by decide))
  have h2 := Reachable.submit _ _ "a" "a||b" h1
    (submit_eloStep rfl rfl (by decide) (by decide))
  have h3 := Reachable.submit _ _ "a" "c" h2
    (submit_eloStep rfl rfl (by decide) (by decide))
  have h4 := Reachable.submit _ _ "b||c" "a||b" h3
    (submit_eloStep rfl rfl (by decide) (by decide))
  exact Reachable.submit _ _ "b||c" "c" h4
    (submit_eloStep rfl rfl (by decide) (by decide))

/-- C2 counterexample: `collideState` is reachable, every pair of its
universe has its canonical key in the compared set, and yet
`isSessionComplete` is false there (the set holds 5 keys against 6 pairs,
and no confidence exceeds 0.75 < 0.9), refuting the claimed equivalence as
stated. -/
theorem isSessionComplete_collision_cex :
    Reachable collideState ∧
    collideState.allPairs.all
      (fun p => decide (pairKey p.1 p.2 ∈ collideState.comparedPairs)) = true ∧
    ¬ isSessionComplete collideState := by
  refine ⟨collideState_reachable, by decide, ?_⟩
  intro hcomp
  rcases hcomp with hlen | hconf
  · exact absurd hlen (by decide)
  · obtain ⟨r, hr⟩ : ∃ r, findItem collideState "c" = some r :=
      Option.isSome_iff_exists.mp rfl
    have hthresh := hconf r (List.mem_of_find?_eq_some hr)
    have hcv : r.confidence = 1 - 1 / (1 + ((2 : ℕ) : ℝ)) := by
      have hfc : findConfidence collideState "c" = 1 - 1 / (1 + ((2 : ℕ) : ℝ)) := rfl
      rw [findConfidence, hr] at hfc
      simpa using hfc
    rw [hcv, show collideState.options.confidenceThreshold = (0.9 : ℝ) from rfl]
      at hthresh
    norm_num at hthresh

/-! ## Facts about the stable descending insertion sort -/

theorem insertByKey_perm {α : Type} (f : α → ℝ) (x : α) (l : List α) :
    (insertByKey f x l).Perm (x :: l) := by
  induction l with
  | nil => exact List.Perm.refl _
  | cons y ys ih =>
    rw [insertByKey]
    split
    · exact List.Perm.refl _
    · exact (List.Perm.cons y ih).trans (List.Perm.swap x y ys)

theorem sortByKey_perm {α : Type} (f : α → ℝ) (l : List α) :
    (sortByKey f l).Perm l := by
  induction l with
  | nil => exact List.Perm.refl _
  | cons x xs ih =>
    exact (insertByKey_perm f x (sortByKey f xs)).trans (List.Perm.cons x ih)

theorem mem_insertByKey {α : Type} {f : α → ℝ} {x a : α} {l : List α} :
    a ∈ insertByKey f x l ↔ a = x ∨ a ∈ l := by
  rw [(insertByKey_perm f x l).mem_iff, List.mem_cons]

theorem insertByKey_sorted {α : Type} (f : α → ℝ) (x : α) {l : List α}
    (h : l.Pairwise (fun a b => f b ≤ f a)) :
    (insertByKey f x l).Pairwise (fun a b => f b ≤ f a) := by
  induction l with
  | nil => simp [insertByKey]
  | cons y ys ih =>
    rw [insertByKey]
    obtain ⟨hy, hys⟩ := List.pairwise_cons.mp h
    split
    · rename_i hcond
      refine List.pairwise_cons.mpr ⟨?_, h⟩
      intro b hb
      rcases List.mem_cons.mp hb with rfl | hb'
      · exact hcond
      · exact le_trans (hy b hb') hcond
    · rename_i hcond
      have hxy : f x < f y := lt_of_not_le hcond
      refine List.pairwise_cons.mpr ⟨?_, ih hys⟩
      intro b hb
      rcases mem_insertByKey.mp hb with rfl | hb'
      · exact le_of_lt hxy
      · exact hy b hb'

theorem sortByKey_sorted {α : Type} (f : α → ℝ) (l : List α) :
    (sortByKey f l).Pairwise (fun a b => f b ≤ f a) := by
  induction l with
  | nil => exact List.Pairwise.nil
  | cons x xs ih => exact insertByKey_sorted f x ih

/-- Sorting records tagged with their own key and forgetting the tags is
sorting by the key. -/
theorem insertByKey_tagged {α : Type} (f : α → ℝ) (x : α) (l : List α) :
    insertByKey (fun q : α × ℝ => q.2) (x, f x) (l.map (fun p => (p, f p))) =
      (insertByKey f x l).map (fun p => (p, f p)) := by
  induction l with
  | nil => rfl
  | cons y ys ih =>
    rw [List.map_cons, insertByKey, insertByKey]
    split
    · rfl
    · rw [List.map_cons, ih]

theorem sortByKey_tagged {α : Type} (f : α → ℝ) (l : List α) :
    sortByKey (fun q : α × ℝ => q.2) (l.map (fun p => (p, f p))) =
      (sortByKey f l).map (fun p => (p, f p)) := by
  induction l with
  | nil => rfl
  | cons x xs ih =>
    rw [List.map_cons, sortByKey, sortByKey, ih, insertByKey_tagged]

/-! ## Facts about the spec-side enumerated sort -/

theorem enumFrom_map_snd {α : Type} (k : ℕ) (l : List α) :
    (enumFrom k l).map Prod.snd = l := by
  induction l generalizing k with
  | nil => rfl
  | cons x xs ih => rw [enumFrom, List.map_cons, ih]

theorem enumFrom_fst_lt {α : Type} {k : ℕ} {l : List α} {p : ℕ × α}
    (h : p ∈ enumFrom k l) : k ≤ p.1 := by
  induction l generalizing k with
  | nil => cases h
  | cons x xs ih =>
    rcases List.mem_cons.mp h with rfl | h'
    · exact le_refl _
    · exact le_trans (Nat.le_succ k) (ih h')

theorem enumFrom_pairwise {α : Type} (k : ℕ) (l : List α) :
    (enumFrom k l).Pairwise (fun p q => p.1 < q.1) := by
  induction l generalizing k with
  | nil => exact List.Pairwise.nil
  | cons x xs ih =>
    refine List.pairwise_cons.mpr ⟨?_, ih (k + 1)⟩
    intro q hq
    exact lt_of_lt_of_le (Nat.lt_succ_self k) (enumFrom_fst_lt hq)

theorem insertRanked_perm {α : Type} (f : α → ℝ) (x : ℕ × α)
    (l : List (ℕ × α)) : (insertRanked f x l).Perm (x :: l) := by
  induction l with
  | nil => exact List.Perm.refl _
  | cons y ys ih =>
    rw [insertRanked]
    split
    · exact List.Perm.refl _
    · exact (List.Perm.cons y ih).trans (List.Perm.swap x y ys)

theorem sortRanked_perm {α : Type} (f : α → ℝ) (l : List (ℕ × α)) :
    (sortRanked f l).Perm l := by
  induction l with
  | nil => exact List.Perm.refl _
  | cons x xs ih =>
    exact (insertRanked_perm f x (sortRanked f xs)).trans (List.Perm.cons x ih)

/-- On an index-increasing list the spec's tie-breaking order inserts at the
same place as the stable key sort. -/
theorem insertRanked_map_snd {α : Type} (f : α → ℝ) (x : ℕ × α)
    {l : List (ℕ × α)} (hlt : ∀ y ∈ l, x.1 < y.1) :
    (insertRanked f x l).map Prod.snd = insertByKey f x.2 (l.map Prod.snd) := by
  induction l with
  | nil => rfl
  | cons y ys ih =>
    rw [insertRanked, List.map_cons, insertByKey]
    have hxy : x.1 < y.1 := hlt y (List.mem_cons_self _ _)
    by_cases hcond : f y.2 ≤ f x.2
    · rw [if_pos (by
        rcases lt_or_eq_of_le hcond with hlt' | heq
        · exact Or.inl hlt'
        · exact Or.inr ⟨heq, hxy⟩), if_pos hcond]
      rfl
    · rw [if_neg (by
        rintro (hlt' | ⟨heq, _⟩)
        · exact hcond (le_of_lt hlt')
        · exact hcond (le_of_eq heq)), if_neg hcond, List.map_cons,
        ih (fun z hz => hlt z (List.mem_cons_of_mem _ hz))]

theorem sortRanked_map_snd {α : Type} (f : α → ℝ) {l : List (ℕ × α)}
    (h : l.Pairwise (fun p q => p.1 < q.1)) :
    (sortRanked f l).map Prod.snd = sortByKey f (l.map Prod.snd) := by
  induction l with
  | nil => rfl
  | cons x xs ih =>
    obtain ⟨hx, hxs⟩ := List.pairwise_cons.mp h
    rw [sortRanked, List.map_cons, sortByKey,
      insertRanked_map_snd f x (fun y hy => hx y ((sortRanked_perm f xs).mem_iff.mp hy)),
      ih hxs]

/-! ## Claim C3: the scheduler -/

theorem enumFrom_filter_map_snd {α : Type} (P : α → Bool) (k : ℕ)
    (l : List α) :
    ((enumFrom k l).filter (fun q => P q.2)).map Prod.snd = l.filter P := by
  induction l generalizing k with
  | nil => rfl
  | cons x xs ih =>
    rw [enumFrom, List.filter_cons, List.filter_cons]
    cases h : P x with
    | true => simp [h, ih]
    | false => simp [h, ih]

/-- The pair score the code computes is the spec's formula with the spec's
normalisation (the two agree also in the all-equal-scores case, where the
code short-circuits the difference to 0 and the spec normalises everything
to 0.5). -/
theorem pairScoreOf_eq_spec (st : RankerState) (p : String × String) :
    pairScoreOf st p = pairScoreSpec st p := by
  simp only [pairScoreOf, pairScoreSpec, normScoreSpec]
  by_cases h : listMax (st.items.map ItemData.score) -
      listMin (st.items.map ItemData.score) > 0
  · simp only [if_pos h]
  · simp only [if_neg h]
    norm_num

/-- The scheduler refines the spec's description: stable sort by descending
pair score equals the sort by (descending score, enumeration index). -/
theorem getNextMatches_eq_spec (st : RankerState) (n : ℕ) :
    getNextMatches st n = nextMatchesSpec st n := by
  unfold getNextMatches nextMatchesSpec
  by_cases hc : isSessionComplete st
  · rw [if_pos hc, if_pos hc]
  · rw [if_neg hc, if_neg hc]
    have hsnd : ((enumFrom 0 st.allPairs).filter
        (fun q => pairKey q.2.1 q.2.2 ∉ st.comparedPairs)).map Prod.snd =
        uncomparedOf st :=
      enumFrom_filter_map_snd
        (fun p => decide (pairKey p.1 p.2 ∉ st.comparedPairs)) 0 st.allPairs
    have hpw : ((enumFrom 0 st.allPairs).filter
        (fun q => pairKey q.2.1 q.2.2 ∉ st.comparedPairs)).Pairwise
        (fun p q => p.1 < q.1) :=
      (enumFrom_pairwise 0 st.allPairs).filter _
    have hfun : pairScoreSpec st = pairScoreOf st :=
      funext (fun p => (pairScoreOf_eq_spec st p).symm)
    rw [sortRanked_map_snd (pairScoreSpec st) hpw, hsnd, hfun]
    by_cases hunc : uncomparedOf st = []
    · rw [if_pos hunc, hunc,
        show sortByKey (pairScoreOf st) ([] : List (String × String)) = []
          from rfl,
        List.take_nil]
    · rw [if_neg hunc]
      show ((sortByKey Prod.snd ((uncomparedOf st).map
          (fun p => (p, pairScoreOf st p)))).take n).map Prod.fst =
        (sortByKey (pairScoreOf st) (uncomparedOf st)).take n
      rw [sortByKey_tagged (pairScoreOf st) (uncomparedOf st),
        List.map_take, List.map_map,
        show (Prod.fst ∘ fun p : String × String => (p, pairScoreOf st p)) = id
          from rfl,
        List.map_id]

/-- C3: `getNextMatches(n)` is empty once the session is complete, returns
at most `n` pairs, draws them exclusively from universe pairs whose key is
not in the compared set in their stored orientation, orders them by
descending pair score with ties broken by the universe's enumeration order
(it equals the spec-side `nextMatchesSpec`, a sort by descending score and
then enumeration index), and `getNextMatch()` is its `n = 1` head. -/
theorem getNextMatches_correct (st : RankerState) (n : ℕ) :
    getNextMatches st n = nextMatchesSpec st n ∧
    (isSessionComplete st → getNextMatches st n = []) ∧
    (getNextMatches st n).length ≤ n ∧
    (∀ p ∈ getNextMatches st n, p ∈ st.allPairs ∧
      pairKey p.1 p.2 ∉ st.comparedPairs) ∧
    (getNextMatches st n).Pairwise
      (fun p q => pairScoreOf st q ≤ pairScoreOf st p) ∧
    getNextMatch st = (nextMatchesSpec st 1).head? := by
  have hsplit : getNextMatches st n = [] ∨
      getNextMatches st n = ((sortByKey Prod.snd ((uncomparedOf st).map
        (fun p => (p, pairScoreOf st p)))).take n).map Prod.fst := by
    unfold getNextMatches
    by_cases hc : isSessionComplete st
    · rw [if_pos hc]
      exact Or.inl rfl
    · rw [if_neg hc]
      by_cases hunc : uncomparedOf st = []
      · rw [if_pos hunc]
        exact Or.inl rfl
      · rw [if_neg hunc]
        exact Or.inr rfl
  refine ⟨getNextMatches_eq_spec st n, ?_, ?_, ?_, ?_, ?_⟩
  · intro hc
    unfold getNextMatches
    rw [if_pos hc]
  · rcases hsplit with heq | heq
    · rw [heq]
      exact Nat.zero_le n
    · rw [heq, List.length_map, List.length_take]
      exact min_le_left _ _
  · intro p hp
    rcases hsplit with heq | heq
    · rw [heq] at hp
      cases hp
    · rw [heq] at hp
      obtain ⟨q, hq, rfl⟩ := List.mem_map.mp hp
      have hq' : q ∈ sortByKey Prod.snd ((uncomparedOf st).map
          (fun p => (p, pairScoreOf st p))) :=
        (List.take_sublist n _).subset hq
      have hq'' : q ∈ (uncomparedOf st).map (fun p => (p, pairScoreOf st p)) :=
        (sortByKey_perm _ _).mem_iff.mp hq'
      obtain ⟨p', hp', rfl⟩ := List.mem_map.mp hq''
      have := List.mem_filter.mp hp'
      exact ⟨this.1, by simpa using this.2⟩
  · rcases hsplit with heq | heq
    · rw [heq]
      exact List.Pairwise.nil
    · rw [heq, List.pairwise_map]
      have hsorted := sortByKey_sorted Prod.snd ((uncomparedOf st).map
        (fun p => (p, pairScoreOf st p)))
      have htake := hsorted.sublist (List.take_sublist n _)
      refine htake.imp_of_mem ?_
      intro a b ha hb hle
      have hamem : a ∈ (uncomparedOf st).map (fun p => (p, pairScoreOf st p)) :=
        (sortByKey_perm _ _).mem_iff.mp ((List.take_sublist n _).subset ha)
      have hbmem : b ∈ (uncomparedOf st).map (fun p => (p, pairScoreOf st p)) :=
        (sortByKey_perm _ _).mem_iff.mp ((List.take_sublist n _).subset hb)
      obtain ⟨pa, _, rfl⟩ := List.mem_map.mp hamem
      obtain ⟨pb, _, rfl⟩ := List.mem_map.mp hbmem
      exact hle
  · unfold getNextMatch
    rw [getNextMatches_eq_spec st 1]

/-! ## Claim C8: the rankings report -/

theorem foldl_min_le_init (x : ℝ) (xs : List ℝ) : xs.foldl min x ≤ x := by
  induction xs generalizing x with
  | nil => exact le_refl x
  | cons y ys ih => exact le_trans (ih (min x y)) (min_le_left x y)

theorem foldl_min_le_mem {a : ℝ} {xs : List ℝ} (h : a ∈ xs) (x : ℝ) :
    xs.foldl min x ≤ a := by
  induction xs generalizing x with
  | nil => cases h
  | cons y ys ih =>
    rcases List.mem_cons.mp h with rfl | h'
    · exact le_trans (foldl_min_le_init (min x a) ys) (min_le_right x a)
    · exact ih h' (min x y)

theorem init_le_foldl_max (x : ℝ) (xs : List ℝ) : x ≤ xs.foldl max x := by
  induction xs generalizing x with
  | nil => exact le_refl x
  | cons y ys ih => exact le_trans (le_max_left x y) (ih (max x y))

theorem mem_le_foldl_max {a : ℝ} {xs : List ℝ} (h : a ∈ xs) (x : ℝ) :
    a ≤ xs.foldl max x := by
  induction xs generalizing x with
  | nil => cases h
  | cons y ys ih =>
    rcases List.mem_cons.mp h with rfl | h'
    · exact le_trans (le_max_right x a) (init_le_foldl_max (max x a) ys)
    · exact ih h' (max x y)

theorem listMin_le {a : ℝ} {l : List ℝ} (h : a ∈ l) : listMin l ≤ a := by
  cases l with
  | nil => cases h
  | cons x xs =>
    rcases List.mem_cons.mp h with rfl | h'
    · exact foldl_min_le_init a xs
    · exact foldl_min_le_mem h' x

theorem le_listMax {a : ℝ} {l : List ℝ} (h : a ∈ l) : a ≤ listMax l := by
  cases l with
  | nil => cases h
  | cons x xs =>
    rcases List.mem_cons.mp h with rfl | h'
    · exact init_le_foldl_max a xs
    · exact mem_le_foldl_max h' x

theorem range_pos_of_two_ne {l : List ℝ} {a b : ℝ} (ha : a ∈ l) (hb : b ∈ l)
    (hab : a ≠ b) : 0 < listMax l - listMin l := by
  by_contra hc
  push_neg at hc
  refine hab (le_antisymm ?_ ?_)
  · linarith [le_listMax ha, listMin_le hb]
  · linarith [le_listMax hb, listMin_le ha]

theorem range_nonpos_of_all_eq {l : List ℝ}
    (h : ∀ a ∈ l, ∀ b ∈ l, a = b) : ¬ 0 < listMax l - listMin l := by
  cases l with
  | nil => simp [listMin, listMax]
  | cons x xs =>
    intro hpos
    have h1 : listMin (x :: xs) ≤ x := listMin_le (List.mem_cons_self _ _)
    have h2 : x ≤ listMax (x :: xs) := le_listMax (List.mem_cons_self _ _)
    have hminmem : listMin (x :: xs) ∈ x :: xs := by
      show xs.foldl min x ∈ x :: xs
      clear hpos h1 h2 h
      induction xs generalizing x with
      | nil => exact List.mem_cons_self _ _
      | cons y ys ih =>
        rw [List.foldl_cons]
        rcases List.mem_cons.mp (ih (min x y)) with heq | hmem
        · rcases min_choice x y with hm | hm
          · rw [heq, hm]
            exact List.mem_cons_self _ _
          · rw [heq, hm]
            exact List.mem_cons_of_mem _ (List.mem_cons_self _ _)
        · exact List.mem_cons_of_mem _ (List.mem_cons_of_mem _ hmem)
    have hmaxmem : listMax (x :: xs) ∈ x :: xs := by
      show xs.foldl max x ∈ x :: xs
      clear hpos h1 h2 h hminmem
      induction xs generalizing x with
      | nil => exact List.mem_cons_self _ _
      | cons y ys ih =>
        rw [List.foldl_cons]
        rcases List.mem_cons.mp (ih (max x y)) with heq | hmem
        · rcases max_choice x y with hm | hm
          · rw [heq, hm]
            exact List.mem_cons_self _ _
          · rw [heq, hm]
            exact List.mem_cons_of_mem _ (List.mem_cons_self _ _)
        · exact List.mem_cons_of_mem _ (List.mem_cons_of_mem _ hmem)
    have := h _ hmaxmem _ hminmem
    linarith

theorem assignRanks_length (k : ℕ) (l : List RankingResult) :
    (assignRanks k l).length = l.length := by
  induction l generalizing k with
  | nil => rfl
  | cons r rs ih => simp [assignRanks, ih]

theorem assignRanks_map_rank (k : ℕ) (l : List RankingResult) :
    (assignRanks k l).map RankingResult.rank = List.range' k l.length := by
  induction l generalizing k with
  | nil => rfl
  | cons r rs ih =>
    rw [assignRanks, List.map_cons, List.length_cons, List.range'_succ, ih]

theorem assignRanks_map_item (k : ℕ) (l : List RankingResult) :
    (assignRanks k l).map RankingResult.item = l.map RankingResult.item := by
  induction l generalizing k with
  | nil => rfl
  | cons r rs ih => rw [assignRanks, List.map_cons, List.map_cons, ih]

theorem assignRanks_map_score (k : ℕ) (l : List RankingResult) :
    (assignRanks k l).map RankingResult.score = l.map RankingResult.score := by
  induction l generalizing k with
  | nil => rfl
  | cons r rs ih => rw [assignRanks, List.map_cons, List.map_cons, ih]

theorem assignRanks_mem {r : RankingResult} {k : ℕ} {l : List RankingResult}
    (h : r ∈ assignRanks k l) :
    ∃ r' ∈ l, r.item = r'.item ∧ r.score = r'.score ∧
      r.confidence = r'.confidence := by
  induction l generalizing k with
  | nil => cases h
  | cons r' rs ih =>
    rw [assignRanks] at h
    rcases List.mem_cons.mp h with rfl | h'
    · exact ⟨r', List.mem_cons_self _ _, rfl, rfl, rfl⟩
    · obtain ⟨r'', hmem, hprops⟩ := ih h'
      exact ⟨r'', List.mem_cons_of_mem _ hmem, hprops⟩

theorem pairwise_score_of_map_eq {l1 l2 : List RankingResult}
    (h : l1.map RankingResult.score = l2.map RankingResult.score)
    (h2 : l2.Pairwise (fun a b => b.score ≤ a.score)) :
    l1.Pairwise (fun a b => b.score ≤ a.score) := by
  have h2' : (l2.map RankingResult.score).Pairwise
      (fun a b : ℝ => b ≤ a) := List.pairwise_map.mpr h2
  rw [← h] at h2'
  exact List.pairwise_map.mp h2'

theorem reachable_initialItems_ne_nil {st : RankerState} (h : Reachable st) :
    st.initialItems ≠ [] := by
  induction h with
  | construct items opts st hok =>
    unfold mkRanker at hok
    split at hok
    · cases hok
    · obtain rfl : mkFresh (dedupFirst items) opts = st := Except.ok.inj hok
      rename_i hlen
      cases items with
      | nil => exact absurd (by norm_num : ([] : List String).length < 2) hlen
      | cons x xs =>
        show dedupFirst (x :: xs) ≠ []
        rw [dedupFirst]
        exact List.cons_ne_nil _ _
  | submit st st' w lo hr hok ih =>
    rcases submit_ok_cases hok with rfl | ⟨wd, ld, _, _, _, _, rfl⟩
    · exact ih
    · exact ih
  | reset st hr ih => exact ih

/-- C8: on every reachable session, `getRankings()` returns one entry per
deduplicated construction item (its names are a permutation of the stored
list, its length that list's length), with the item's confidence, the
min-max-normalised score (0.5 for everyone exactly when all raw scores are
equal — the sixth conjunct shows the normalising denominator is positive
otherwise), sorted by descending normalised score with the 1-based ranks
exactly `1..n` in order; the call is a pure function of the state. -/
theorem getRankings_correct (st : RankerState) (h : Reachable st) :
    (getRankings st).length = st.initialItems.length ∧
    (getRankings st).map RankingResult.rank =
      List.range' 1 (getRankings st).length ∧
    ((getRankings st).map RankingResult.item).Perm st.initialItems ∧
    (getRankings st).Pairwise (fun a b => b.score ≤ a.score) ∧
    (∀ r ∈ getRankings st, ∃ d ∈ st.items, r.item = d.item ∧
      r.confidence = d.confidence ∧
      (0 < listMax (st.items.map ItemData.score) -
          listMin (st.items.map ItemData.score) →
        r.score = (d.score - listMin (st.items.map ItemData.score)) /
          (listMax (st.items.map ItemData.score) -
            listMin (st.items.map ItemData.score))) ∧
      ((∀ d1 ∈ st.items, ∀ d2 ∈ st.items, d1.score = d2.score) →
        r.score = 0.5)) ∧
    ((¬ ∀ d1 ∈ st.items, ∀ d2 ∈ st.items, d1.score = d2.score) →
      0 < listMax (st.items.map ItemData.score) -
        listMin (st.items.map ItemData.score)) := by
  obtain ⟨hnames, hnd, _, _, _, _⟩ := reachable_invariant h
  have hlen : st.items.length = st.initialItems.length := by
    rw [← hnames, List.length_map]
  have hchar : getRankings st = assignRanks 1 (sortByKey RankingResult.score
      (st.items.map (rankingEntry (listMin (st.items.map ItemData.score))
        (listMax (st.items.map ItemData.score) -
          listMin (st.items.map ItemData.score))))) := rfl
  have hitemmap : (st.items.map (rankingEntry
      (listMin (st.items.map ItemData.score))
      (listMax (st.items.map ItemData.score) -
        listMin (st.items.map ItemData.score)))).map RankingResult.item =
      st.initialItems := by
    rw [List.map_map]
    rw [show (RankingResult.item ∘ rankingEntry
      (listMin (st.items.map ItemData.score))
      (listMax (st.items.map ItemData.score) -
        listMin (st.items.map ItemData.score))) = ItemData.item from rfl]
    exact hnames
  refine ⟨?_, ?_, ?_, ?_, ?_, ?_⟩
  · rw [hchar, assignRanks_length, (sortByKey_perm _ _).length_eq,
      List.length_map, hlen]
  · rw [hchar, assignRanks_map_rank, assignRanks_length]
  · rw [hchar, assignRanks_map_item]
    refine ((sortByKey_perm _ _).map _).trans ?_
    rw [hitemmap]
  · rw [hchar]
    exact pairwise_score_of_map_eq (assignRanks_map_score _ _)
      (sortByKey_sorted RankingResult.score _)
  · intro r hr
    rw [hchar] at hr
    obtain ⟨r', hr', hitem, hscore, hconf⟩ := assignRanks_mem hr
    have hr'' : r' ∈ st.items.map (rankingEntry
        (listMin (st.items.map ItemData.score))
        (listMax (st.items.map ItemData.score) -
          listMin (st.items.map ItemData.score))) :=
      (sortByKey_perm _ _).mem_iff.mp hr'
    obtain ⟨d, hd, rfl⟩ := List.mem_map.mp hr''
    refine ⟨d, hd, hitem, hconf, ?_, ?_⟩
    · intro hpos
      rw [hscore]
      exact if_pos hpos
    · intro halleq
      rw [hscore]
      refine if_neg (range_nonpos_of_all_eq ?_)
      intro a ha b hb
      obtain ⟨da, hda, rfl⟩ := List.mem_map.mp ha
      obtain ⟨db, hdb, rfl⟩ := List.mem_map.mp hb
      exact halleq da hda db hdb
  · intro hne
    push_neg at hne
    obtain ⟨d1, hd1, d2, hd2, hne12⟩ := hne
    exact range_pos_of_two_ne (List.mem_map.mpr ⟨d1, hd1, rfl⟩)
      (List.mem_map.mpr ⟨d2, hd2, rfl⟩) hne12

/-- C8 witness: the fresh default two-item session reports two entries with
ranks exactly 1 and 2. -/
theorem getRankings_correct_witness :
    (getRankings freshAB).length = 2 ∧
    (getRankings freshAB).map RankingResult.rank =
      List.range' 1 (getRankings freshAB).length := by
  have hres := getRankings_correct freshAB
    (Reachable.construct ["a", "b"] defaultOptions freshAB rfl)
  exact ⟨hres.1.trans rfl, hres.2.1⟩

end PairwiseRanker
